import Mathlib

/-!
Shallow embedding of pfpacket/wlgopher (src/main.rs), a Wayland client that
animates a walking/jumping sprite on a subsurface using a double-buffered
shared-memory pool.  Machine integers (u64/usize) are modelled as Nat; the
program's values stay far below 2^64, and the one place where u64 subtraction
can underflow (a Rust arithmetic error: panic with debug assertions, wrap in
release) is modelled as a checked operation returning Option.  Fallible code
paths (index out of bounds, slice panics) likewise return Option: a none
result marks an execution on which the Rust program aborts.
-/

namespace Wlgopher

/-- An RGBA pixel as produced by image::RgbaImage: channels() = [r, g, b, a]. -/
structure Rgba where
  r : ℕ
  g : ℕ
  b : ℕ
  a : ℕ
deriving DecidableEq

/-- A decoded pose image (image::RgbaImage): dimensions plus the pixel list in
row-major order, as traversed by frame.pixels() in State::draw. -/
structure RgbaImage where
  width : ℕ
  height : ℕ
  pixels : List Rgba
deriving DecidableEq

/-- The per-pixel channel reorder of State::draw (main.rs:236-238):
with p = pixel.channels() = [r,g,b,a] it writes [p[2], p[1], p[0], p[3]],
i.e. the bytes B, G, R, A. -/
def pixelBytes (p : Rgba) : List ℕ := [p.b, p.g, p.r, p.a]

/-- Reading four destination bytes back under the documented little-endian
ARGB8888 byte order (memory bytes B, G, R, A) and reconstructing the RGBA
channels.  This is the spec-side inverse of the reorder step. -/
def readBackPixel : List ℕ → Option Rgba
  | [b, g, r, a] => some ⟨r, g, b, a⟩
  | _ => none

/-- All bytes State::draw writes for one frame: the concatenation of the
reordered 4-byte pixel groups, pixel i at byte offset i*4 (main.rs:236-239). -/
def renderBytes (f : RgbaImage) : List ℕ := (f.pixels.map pixelBytes).flatten

/-- enum JumpState (main.rs:488-492). -/
inductive JumpState where
  | NotJumping : JumpState
  | Ascending : ℕ → JumpState
  | Descending : ℕ → JumpState
deriving DecidableEq

/-- Observer: the height payload of a JumpState (0 when grounded). -/
def JumpState.height : JumpState → ℕ
  | .NotJumping => 0
  | .Ascending y => y
  | .Descending y => y

/-- JumpState::next (main.rs:495-510).  limit = jump_step * jump_count.  The
deceleration threshold in the source is (limit as f64 * 0.6) as u64; for the
program's configurations (jump_step*jump_count = 6*15 = 15*6 = 90) that f64
expression evaluates exactly to 54 = 90*3/5, so it is embedded as
limit*3/5 on naturals.  Rust's saturating_sub is Nat subtraction; the plain
subtraction limit - jump_step never underflows for the program's parameters
(jump_count >= 1). -/
def JumpState.next (s : JumpState) (jump_step jump_count : ℕ) : JumpState :=
  let limit := jump_step * jump_count
  let threshold := limit * 3 / 5
  match s with
  | .Ascending y =>
    if limit ≤ y then .Descending (limit - jump_step)
    else if threshold ≤ y then .Ascending (y + jump_step / 4)
    else .Ascending (y + jump_step)
  | .Descending y =>
    if y = 0 then .NotJumping
    else if threshold ≤ y then .Descending (y - jump_step / 4)
    else .Descending (y - jump_step)
  | .NotJumping => .NotJumping

/-- The jump trajectory with the parameters of Animation::new
(jump_step = 6, jump_count = 15, limit = 90), starting from a jump begun at
height 0: k applications of JumpState::next to Ascending 0. -/
def jumpSeq : ℕ → JumpState
  | 0 => .Ascending 0
  | k + 1 => (jumpSeq k).next 6 15

/-- struct Animation (main.rs:513-528).  The image lists are supplied by the
decoding collaborator; Animation::new silently drops poses that fail to open
or decode, so the lists may be shorter than the 3 configured paths. -/
structure Animation where
  x : ℕ
  y : ℕ
  area : ℕ × ℕ
  count : ℕ
  jump : JumpState
  forward : Bool
  walk_step : ℕ
  jump_count : ℕ
  jump_step : ℕ
  frames : List RgbaImage
  frames_flipped : List RgbaImage
  frame_index : ℕ
deriving DecidableEq

namespace Animation

/-- Animation::new (main.rs:531-562), with the decoded image lists passed in
(image decoding is an external collaborator).  Defaults: x=0, y=0,
area=(0,0), count=0, NotJumping, forward, walk_step=15, jump_count=15,
jump_step=6, frame_index=0. -/
def new (frames frames_flipped : List RgbaImage) : Animation :=
  { x := 0
    y := 0
    area := (0, 0)
    count := 0
    jump := .NotJumping
    forward := true
    walk_step := 15
    jump_count := 15
    jump_step := 6
    frames := frames
    frames_flipped := frames_flipped
    frame_index := 0 }

/-- Animation::frame (main.rs:571-577): indexes frames (forward) or
frames_flipped (backward) at frame_index.  The Rust code indexes without a
bounds check and panics when the index is out of range; the embedding
returns none there. -/
def frame (a : Animation) : Option RgbaImage :=
  if a.forward then a.frames[a.frame_index]? else a.frames_flipped[a.frame_index]?

/-- Animation::position (main.rs:564-569): (x, area.1 - frame().height() - y).
Both u64 subtractions are unchecked in Rust; none marks the underflow
(and the frame() panic when the index is out of range). -/
def position (a : Animation) : Option (ℕ × ℕ) :=
  match a.frame with
  | none => none
  | some f =>
    if f.height ≤ a.area.2 then
      if a.y ≤ a.area.2 - f.height then some (a.x, a.area.2 - f.height - a.y)
      else none
    else none

/-- The first half of Animation::next (main.rs:580-602): increment count,
apply the JumpState transition, then branch on the post-transition jump
state.  Jumping: y := height, frame_index := 0, effective step walk_step/2.
Grounded: frame_index advances through the hardcoded 0,1,2 cycle, a jump is
scheduled when count is a multiple of 45, effective step walk_step.
Returns the updated animation paired with the effective horizontal step. -/
def stepUpdate (a : Animation) : Animation × ℕ :=
  let a1 : Animation :=
    { a with count := a.count + 1, jump := a.jump.next a.jump_step a.jump_count }
  match a1.jump with
  | .Ascending h => ({ a1 with y := h, frame_index := 0 }, a1.walk_step / 2)
  | .Descending h => ({ a1 with y := h, frame_index := 0 }, a1.walk_step / 2)
  | .NotJumping =>
    let fi := if a1.frame_index = 2 then 0 else a1.frame_index + 1
    let a2 : Animation := { a1 with frame_index := fi }
    (if a2.count % 45 = 0 then { a2 with jump := .Ascending 0 } else a2, a1.walk_step)

/-- The frame index after one Animation::next, as a function of the
pre-state: 0 when the post-transition jump state is airborne, otherwise the
hardcoded 0,1,2 cycle successor. -/
def nextFrameIndex (a : Animation) : ℕ :=
  match a.jump.next a.jump_step a.jump_count with
  | .NotJumping => if a.frame_index = 2 then 0 else a.frame_index + 1
  | _ => 0

/-- Animation::next (main.rs:579-614).  After stepUpdate, the horizontal
move: forward adds the step and clamps at area.0 - frame().width() (an
unchecked u64 subtraction evaluated inside the bound test: none when
frame() panics or when width > area.0, i.e. the subtraction underflows);
backward is saturating and flips forward at x = 0. -/
def next (a : Animation) : Option Animation :=
  match a.stepUpdate with
  | (a2, step) =>
    if a2.forward then
      match a2.frame with
      | none => none
      | some f =>
        if f.width ≤ a2.area.1 then
          if a2.area.1 - f.width ≤ a2.x + step then
            some { a2 with x := a2.area.1 - f.width, forward := false }
          else some { a2 with x := a2.x + step }
        else none
    else some { a2 with x := a2.x - step, forward := a2.x - step == 0 }

end Animation

/-- k successive Animation::next calls, propagating failure. -/
def iterNext : ℕ → Animation → Option Animation
  | 0, a => some a
  | k + 1, a => (a.next).bind (iterNext k)

/-- struct Buffer (main.rs:45-49).  The wl_buffer protocol object is an
opaque identity compared with == in BufferList::set_in_use; it is modelled
as a natural-number handle.  mmap_range is the half-open byte range
(start, stop) of the slot inside the shared memory map. -/
structure Buffer where
  handle : ℕ
  mmap_range : ℕ × ℕ
  in_use : Bool
deriving DecidableEq

/-- struct BufferList (main.rs:51): a vector of buffers. -/
abbrev BufferList := List Buffer

/-- BufferList::get_free_buffer (main.rs:62-64): the first buffer with
in_use == false, if any. -/
def BufferList.get_free_buffer (l : BufferList) : Option Buffer :=
  l.find? fun b => !b.in_use

/-- BufferList::set_in_use (main.rs:66-70): find the first buffer whose
protocol object equals the given handle and set its in_use flag; do nothing
when no buffer matches. -/
def BufferList.set_in_use : BufferList → ℕ → Bool → BufferList
  | [], _, _ => []
  | b :: bs, h, v =>
    if b.handle = h then { b with in_use := v } :: bs
    else b :: BufferList.set_in_use bs h v

/-- The index of the first buffer with in_use == false.  State::draw holds
the &mut Buffer returned by get_free_buffer across the pixel writes and the
in_use update; the embedding identifies that mutable reference by its index
(get_free_buffer_eq_firstFreeIdx below ties the two together). -/
def firstFreeIdx : BufferList → Option ℕ
  | [] => none
  | b :: bs => if b.in_use then (firstFreeIdx bs).map (· + 1) else some 0

/-- Overwrite data.length bytes of m starting at byte off, the effect of the
copy_from_slice loop of State::draw on the slot's byte range. -/
def writeRange (m : List ℕ) (off : ℕ) (data : List ℕ) : List ℕ :=
  m.take off ++ data ++ m.drop (off + data.length)

/-- The bytes of the half-open range r inside the memory map m. -/
def rangeBytes (m : List ℕ) (r : ℕ × ℕ) : List ℕ :=
  (m.drop r.1).take (r.2 - r.1)

/-- The steady-state fields of struct State (main.rs:73-97): the flags, the
slot list, the shared memory bytes and the animation.  The Wayland protocol
objects (surfaces, subsurface, pool) are external collaborators whose
identities do not affect the modelled logic. -/
structure State where
  running : Bool
  configured : Bool
  fullscreen_requested : Bool
  repaint_required : Bool
  child_buffers : BufferList
  mmap : List ℕ
  animation : Animation
deriving DecidableEq

/-- State::draw (main.rs:223-257).  Returns the state unchanged when the
surface is not configured or no buffer is free; otherwise writes the
reordered pixel bytes of the current frame into the free slot's byte range,
marks the slot in use, advances the animation and clears repaint_required.
none marks executions on which the Rust code panics: an out-of-range pose
index inside frame(), a slice bound violation of mmap[range] or
copy_from_slice (the Prop guard), an underflow inside position(), or a
failure inside Animation::next. -/
def State.draw (s : State) : Option State :=
  if s.configured = false then some s
  else
    match firstFreeIdx s.child_buffers with
    | none => some s
    | some i =>
      match s.child_buffers[i]? with
      | none => none
      | some b =>
        match s.animation.frame with
        | none => none
        | some f =>
          if b.mmap_range.1 + (renderBytes f).length ≤ b.mmap_range.2
              ∧ b.mmap_range.2 ≤ s.mmap.length then
            match s.animation.position with
            | none => none
            | some _ =>
              match s.animation.next with
              | none => none
              | some anim =>
                some { s with
                  mmap := writeRange s.mmap b.mmap_range.1 (renderBytes f)
                  child_buffers := s.child_buffers.set i { b with in_use := true }
                  animation := anim
                  repaint_required := false }
          else none

/-- The external signals the steady-state event loop reacts to
(main.rs:321-486): a pacing tick triggering State::draw, wl_buffer Release,
the frame-done callback, xdg_surface Configure, xdg_toplevel Configure,
xdg_toplevel Close and the escape key. -/
inductive Event where
  | draw : Event
  | release : ℕ → Event
  | frameDone : Event
  | surfaceConfigure : Event
  | toplevelConfigure : ℕ → ℕ → Bool → Event
  | close : Event
  | keyEsc : Event
deriving DecidableEq

/-- One dispatch of the event loop: the handler bodies of the Dispatch
implementations (release: main.rs:383-385; frame done: main.rs:368-369;
xdg_surface configure: main.rs:413-416; toplevel configure/close:
main.rs:429-446; key: main.rs:479-484) and State::draw for a repaint. -/
def step (s : State) : Event → Option State
  | .draw => s.draw
  | .release h =>
    some { s with child_buffers := BufferList.set_in_use s.child_buffers h false }
  | .frameDone => some { s with repaint_required := true }
  | .surfaceConfigure => some { s with configured := true }
  | .toplevelConfigure w h fullscreen =>
    if fullscreen && s.fullscreen_requested then
      some { s with animation := { s.animation with area := (w, h) }
                    fullscreen_requested := false
                    repaint_required := true }
    else some s
  | .close => some { s with running := false }
  | .keyEsc => some { s with running := false }

/-- Two half-open ranges do not overlap. -/
def rangesDisjoint (r₁ r₂ : ℕ × ℕ) : Prop := r₁.2 ≤ r₂.1 ∨ r₂.2 ≤ r₁.1

instance (r₁ r₂ : ℕ × ℕ) : Decidable (rangesDisjoint r₁ r₂) :=
  inferInstanceAs (Decidable (_ ∨ _))

/-- Well-formedness of a steady state, established by registry_post_process
(main.rs:185-215): every slot's byte range lies inside the memory map and
distinct slots have disjoint ranges (the two slots are laid out back to back
at offsets 4 and 4 + frame.len()). -/
def State.WF (s : State) : Prop :=
  (∀ b ∈ s.child_buffers, b.mmap_range.1 ≤ b.mmap_range.2
      ∧ b.mmap_range.2 ≤ s.mmap.length)
  ∧ s.child_buffers.Pairwise fun b c => rangesDisjoint b.mmap_range c.mmap_range

instance (s : State) : Decidable s.WF := by
  unfold State.WF
  infer_instance

/-! ### Helper lemmas -/

theorem getElem?_some_exists {α : Type} {l : List α} {i : ℕ} {x : α}
    (h : l[i]? = some x) : ∃ hi : i < l.length, l[i] = x := by
  by_cases hi : i < l.length
  · refine ⟨hi, ?_⟩
    rw [List.getElem?_eq_getElem hi] at h
    exact Option.some.inj h
  · rw [List.getElem?_eq_none (by omega)] at h
    exact Option.noConfusion h

theorem length_writeRange (m data : List ℕ) (off : ℕ)
    (h : off + data.length ≤ m.length) :
    (writeRange m off data).length = m.length := by
  simp only [writeRange, List.length_append, List.length_take, List.length_drop]
  omega

theorem getElem?_writeRange_outside (m data : List ℕ) (off k : ℕ)
    (hfit : off + data.length ≤ m.length) (hk : k < off ∨ off + data.length ≤ k) :
    (writeRange m off data)[k]? = m[k]? := by
  have hlt : (m.take off).length = off := List.length_take_of_le (by omega)
  rcases hk with hk | hk
  · rw [writeRange, List.append_assoc, List.getElem?_append, hlt, if_pos hk,
      List.getElem?_take, if_pos hk]
  · rw [writeRange, List.append_assoc, List.getElem?_append, hlt, if_neg (by omega),
      List.getElem?_append, if_neg (by omega), List.getElem?_drop]
    congr 1
    omega

theorem rangeBytes_congr (m m' : List ℕ) (r : ℕ × ℕ)
    (h : ∀ k, r.1 ≤ k → k < r.2 → m'[k]? = m[k]?) :
    rangeBytes m' r = rangeBytes m r := by
  apply List.ext_getElem?
  intro n
  rw [rangeBytes, rangeBytes, List.getElem?_take, List.getElem?_take]
  by_cases hn : n < r.2 - r.1
  · rw [if_pos hn, if_pos hn, List.getElem?_drop, List.getElem?_drop]
    exact h (r.1 + n) (Nat.le_add_right _ _) (by omega)
  · rw [if_neg hn, if_neg hn]

theorem rangeBytes_writeRange_self (m data : List ℕ) (off : ℕ)
    (h : off + data.length ≤ m.length) :
    rangeBytes (writeRange m off data) (off, off + data.length) = data := by
  have hlt : (m.take off).length = off := List.length_take_of_le (by omega)
  rw [rangeBytes, writeRange, List.append_assoc]
  rw [List.drop_left' hlt]
  have h2 : (off, off + data.length).2 - (off, off + data.length).1 = data.length := by
    simp
  rw [h2]
  exact List.take_left' rfl

theorem firstFreeIdx_eq_none (l : BufferList) :
    firstFreeIdx l = none ↔ ∀ b ∈ l, b.in_use = true := by
  induction l with
  | nil => simp [firstFreeIdx]
  | cons x xs ih =>
    by_cases hx : x.in_use
    · simp [firstFreeIdx, hx, ih]
    · simp [firstFreeIdx, hx]

theorem firstFreeIdx_spec (l : BufferList) (i : ℕ) (h : firstFreeIdx l = some i) :
    ∃ b, l[i]? = some b ∧ b.in_use = false := by
  induction l generalizing i with
  | nil => exact Option.noConfusion h
  | cons x xs ih =>
    by_cases hx : x.in_use
    · rw [firstFreeIdx, if_pos hx] at h
      match hfi : firstFreeIdx xs with
      | none => rw [hfi] at h; exact Option.noConfusion h
      | some j =>
        rw [hfi] at h
        have hij : i = j + 1 := (Option.some.inj h).symm
        subst hij
        obtain ⟨b, hb, hbu⟩ := ih j hfi
        exact ⟨b, by simpa using hb, hbu⟩
    · rw [firstFreeIdx, if_neg hx] at h
      have hi : i = 0 := (Option.some.inj h).symm
      subst hi
      exact ⟨x, by simp, by simpa using hx⟩

theorem get_free_buffer_eq_firstFreeIdx (l : BufferList) :
    BufferList.get_free_buffer l = (firstFreeIdx l).bind fun i => l[i]? := by
  induction l with
  | nil => rfl
  | cons x xs ih =>
    by_cases hx : x.in_use
    · rw [BufferList.get_free_buffer, List.find?_cons_of_neg _ (by simpa using hx),
        firstFreeIdx, if_pos hx]
      rw [BufferList.get_free_buffer] at ih
      rw [ih]
      cases firstFreeIdx xs <;> simp
    · rw [BufferList.get_free_buffer, List.find?_cons_of_pos _ (by simpa using hx),
        firstFreeIdx, if_neg hx]
      simp

theorem find_free_first (l : BufferList) (b : Buffer)
    (h : BufferList.get_free_buffer l = some b) :
    ∃ i, l[i]? = some b
      ∧ ∀ (j : ℕ) (c : Buffer), j < i → l[j]? = some c → c.in_use = true := by
  induction l with
  | nil => exact Option.noConfusion h
  | cons x xs ih =>
    by_cases hx : x.in_use
    · rw [BufferList.get_free_buffer, List.find?_cons_of_neg _ (by simpa using hx)] at h
      obtain ⟨i, hi, hj⟩ := ih h
      refine ⟨i + 1, by simpa using hi, ?_⟩
      intro j c hji hjc
      match j with
      | 0 =>
        have hcx : x = c := by simpa using hjc
        exact hcx ▸ hx
      | k + 1 => exact hj k c (by omega) (by simpa using hjc)
    · rw [BufferList.get_free_buffer, List.find?_cons_of_pos _ (by simpa using hx)] at h
      have hxb : x = b := Option.some.inj h
      refine ⟨0, by simp [hxb], ?_⟩
      intro j c hj
      omega

theorem stepUpdate_components (a : Animation) :
    (a.stepUpdate).1.forward = a.forward
    ∧ (a.stepUpdate).1.frames = a.frames
    ∧ (a.stepUpdate).1.frames_flipped = a.frames_flipped
    ∧ (a.stepUpdate).1.area = a.area
    ∧ (a.stepUpdate).1.x = a.x
    ∧ (a.stepUpdate).1.count = a.count + 1
    ∧ (a.stepUpdate).1.frame_index = a.nextFrameIndex
    ∧ (a.stepUpdate).1.walk_step = a.walk_step := by
  unfold Animation.stepUpdate Animation.nextFrameIndex
  cases h : a.jump.next a.jump_step a.jump_count <;> simp [h]
  split <;> simp

theorem stepUpdate_frame (a : Animation) (hf : a.forward = true) :
    (a.stepUpdate).1.frame = a.frames[a.nextFrameIndex]? := by
  obtain ⟨h1, h2, _, _, _, _, h7, _⟩ := stepUpdate_components a
  rw [Animation.frame, h1, hf, h2, h7]
  simp

theorem next_frame_index (a a' : Animation) (h : Animation.next a = some a') :
    a'.frame_index = a.nextFrameIndex := by
  obtain ⟨_, _, _, _, _, _, h7, _⟩ := stepUpdate_components a
  rw [Animation.next] at h
  rcases hsu : a.stepUpdate with ⟨a2, st⟩
  rw [hsu] at h h7
  simp only at h h7
  by_cases hf : a2.forward
  · rw [if_pos hf] at h
    match hfr : a2.frame with
    | none => rw [hfr] at h; exact Option.noConfusion h
    | some f =>
      rw [hfr] at h
      dsimp only at h
      by_cases hw : f.width ≤ a2.area.1
      · rw [if_pos hw] at h
        by_cases hb : a2.area.1 - f.width ≤ a2.x + st
        · rw [if_pos hb] at h
          have := Option.some.inj h
          rw [← this, ← h7]
        · rw [if_neg hb] at h
          have := Option.some.inj h
          rw [← this, ← h7]
      · rw [if_neg hw] at h
        exact Option.noConfusion h
  · rw [if_neg hf] at h
    have := Option.some.inj h
    rw [← this, ← h7]

/-! ### Concrete instances used by the claims -/

/-- A 40x40 pose image; the movement logic never reads the pixel contents. -/
def gopher40 : RgbaImage := { width := 40, height := 40, pixels := [] }

/-- A full three-pose list, the configuration Animation::new expects when
all three images decode. -/
def poses3 : List RgbaImage := [gopher40, gopher40, gopher40]

/-! ### Claims -/

/-- C7: the channel-reorder step of State::draw writes the bytes B,G,R,A of
an RGBA pixel, and reading the destination bytes back under the documented
little-endian ARGB8888 byte order reconstructs the original R,G,B,A values
exactly: the reorder composed with its inverse is the identity on every
pixel. -/
theorem c7_channel_reorder_roundtrip (p : Rgba) :
    readBackPixel (pixelBytes p) = some p := by
  cases p
  rfl

/-- C2 counterexample: with jump_step = 6 and jump_count = 15 (limit = 90)
the claimed shape of the ascent is wrong.  The deceleration band (threshold
54 = (90 * 0.6)) is entered after only 9 full-step ascending ticks, not 15:
tick 9 already yields Ascending 54, and after 15 ticks the state is
Ascending 60, not Ascending 90. -/
theorem c2_counterexample :
    jumpSeq 9 = JumpState.Ascending 54
    ∧ jumpSeq 15 = JumpState.Ascending 60
    ∧ jumpSeq 15 ≠ JumpState.Ascending 90 := by
  decide

/-- C2 amended: with jump_step = 6, jump_count = 15 (limit = 90, threshold
54), starting from a jump begun at height 0, the first 9 ticks climb by the
full step 6 below the deceleration band and reach Ascending 54; ticks 10-45
are in the deceleration band (height at least 54) and climb by
jump_step / 4 = 1, reaching Ascending 90 at tick 45; tick 46 yields
Descending 84; the grounded state is reached at tick 87 and not before; and
the height (a natural, with saturating descent) never exceeds 90 and is
never negative. -/
theorem c2_amended_jump_trajectory :
    jumpSeq 9 = JumpState.Ascending 54
    ∧ (∀ k, k < 9 → (jumpSeq k).height < 54
        ∧ (jumpSeq (k + 1)).height = (jumpSeq k).height + 6)
    ∧ (∀ k, k < 45 → 9 ≤ k → 54 ≤ (jumpSeq k).height
        ∧ (jumpSeq (k + 1)).height = (jumpSeq k).height + 1)
    ∧ jumpSeq 45 = JumpState.Ascending 90
    ∧ jumpSeq 46 = JumpState.Descending 84
    ∧ jumpSeq 87 = JumpState.NotJumping
    ∧ (∀ k, k < 87 → jumpSeq k ≠ JumpState.NotJumping)
    ∧ (∀ k, k < 88 → (jumpSeq k).height ≤ 90) := by
  decide

/-- C3 counterexample: the horizontal bound arithmetic of Animation::next
does not saturate.  On the uninitialized state produced by Animation::new
(area = (0, 0)) with the three 40-pixel-wide poses, the u64 subtraction
area.0 - frame().width() underflows (width 40 > area width 0) and next()
aborts instead of clamping to 0: the claim that next() is total on such
states is false. -/
theorem c3_counterexample :
    Animation.next (Animation.new poses3 poses3) = none := by
  decide

/-- C9 counterexample: the spec scenario (area = (800, 600), a single 40x40
pose, walk_step = 10, x = 0, forward, grounded, count not about to hit a
multiple of 45) does not execute: Animation::next advances the pose index
to 1 through the hardcoded 0,1,2 cycle and then indexes frames[1], which is
out of bounds for a one-pose list, so the call panics instead of returning
x = 10 and pose index 1. -/
theorem c9_counterexample :
    Animation.next
      { Animation.new [gopher40] [gopher40] with area := (800, 600), walk_step := 10 }
      = none := by
  decide

/-- The spec scenario of C9 repaired with a second pose so that the
hardcoded index cycle stays in bounds. -/
def twoPoseWalk : Animation :=
  { Animation.new [gopher40, gopher40] [gopher40, gopher40] with
      area := (800, 600), walk_step := 10 }

/-- C9 amended: in the spec scenario with a pose list of at least two 40x40
poses (the hardcoded cycle advances the index to 1 regardless of the pose
count, so a single-pose list panics), one Animation::next call from
area = (800, 600), walk_step = 10, x = 0, forward, grounded yields x = 10,
pose index 1 and still facing forward, and Animation::position then returns
(10, 600 - 40 - 0) = (10, 560). -/
theorem c9_amended_walk_scenario :
    ((Animation.next twoPoseWalk).map fun a => a.x) = some 10
    ∧ ((Animation.next twoPoseWalk).map fun a => a.frame_index) = some 1
    ∧ ((Animation.next twoPoseWalk).map fun a => a.forward) = some true
    ∧ ((Animation.next twoPoseWalk).bind Animation.position) = some (10, 560) := by
  decide

/-- C4 counterexample: the grounded pose-index advance does not wrap after
the last pose of an N-pose list; it wraps after index 2 regardless of the
pose count.  With a four-pose list and frame_index = 2 in the grounded
state, one Animation::next yields frame_index 0, not 3 = N - 1 as the claim
requires. -/
theorem c4_counterexample :
    ((Animation.next
        { Animation.new [gopher40, gopher40, gopher40, gopher40]
            [gopher40, gopher40, gopher40, gopher40] with
            area := (800, 600), walk_step := 10, frame_index := 2 }).map
      fun a => a.frame_index) = some 0 := by
  decide

/-- C3 amended: the horizontal bound arithmetic is an unchecked u64
subtraction, evaluated only in the forward branch, and it is not saturating:
Animation::next is partial.  It succeeds whenever the sprite walks backward,
and whenever it walks forward with the advanced pose index in bounds and
frame width at most the area width; but when the area is narrower than the
frame (the uninitialized (0, 0) area before the first configure), the
subtraction area.0 - frame().width() underflows (panic in debug, wrap in
release) and the call aborts instead of clamping to 0. -/
theorem c3_amended_bound_not_saturating :
    (∀ a : Animation, a.forward = false → (Animation.next a).isSome = true)
    ∧ (∀ (a : Animation) (f : RgbaImage), a.forward = true →
        a.frames[a.nextFrameIndex]? = some f → f.width ≤ a.area.1 →
        (Animation.next a).isSome = true)
    ∧ (∀ (a : Animation) (f : RgbaImage), a.forward = true →
        a.frames[a.nextFrameIndex]? = some f → a.area.1 < f.width →
        Animation.next a = none) := by
  refine ⟨?_, ?_, ?_⟩
  · intro a hf
    have h1 := (stepUpdate_components a).1
    rcases hsu : a.stepUpdate with ⟨a2, st⟩
    rw [hsu] at h1
    simp only at h1
    simp only [Animation.next, hsu]
    simp [h1, hf]
  · intro a f hf hfr hw
    have h1 := (stepUpdate_components a).1
    have h4 := (stepUpdate_components a).2.2.2.1
    have hfra := stepUpdate_frame a hf
    rcases hsu : a.stepUpdate with ⟨a2, st⟩
    rw [hsu] at h1 h4 hfra
    simp only at h1 h4 hfra
    rw [hfr] at hfra
    simp only [Animation.next, hsu]
    rw [if_pos (show a2.forward = true by rw [h1, hf])]
    rw [hfra]
    dsimp only
    rw [h4, if_pos hw]
    split <;> rfl
  · intro a f hf hfr hw
    have h1 := (stepUpdate_components a).1
    have h4 := (stepUpdate_components a).2.2.2.1
    have hfra := stepUpdate_frame a hf
    rcases hsu : a.stepUpdate with ⟨a2, st⟩
    rw [hsu] at h1 h4 hfra
    simp only at h1 h4 hfra
    rw [hfr] at hfra
    simp only [Animation.next, hsu]
    rw [if_pos (show a2.forward = true by rw [h1, hf])]
    rw [hfra]
    dsimp only
    rw [h4, if_neg (by omega)]

/-- The three-pose animation after the first configure set a real area. -/
def forwardFit : Animation := { Animation.new poses3 poses3 with area := (800, 600) }

/-- Witness for C3 amended: on forwardFit, walking forward with the 40-wide
pose in bounds of the 800-wide area, Animation::next succeeds. -/
theorem c3_amended_witness :
    forwardFit.frames[forwardFit.nextFrameIndex]? = some gopher40
    ∧ gopher40.width ≤ forwardFit.area.1
    ∧ (Animation.next forwardFit).isSome = true :=
  ⟨by decide, by decide,
    c3_amended_bound_not_saturating.2.1 forwardFit gopher40 rfl (by decide) (by decide)⟩

/-- C4 amended: for every successful Animation::next, if the
post-transition jump state is grounded the pose index advances through the
hardcoded 0, 1, 2 cycle (wrap to 0 after index 2, independent of the pose
count); if it is Ascending or Descending the pose index is forced to the
fixed jump-pose index 0. -/
theorem c4_amended_pose_cycle (a a' : Animation) (h : Animation.next a = some a') :
    (a.jump.next a.jump_step a.jump_count = JumpState.NotJumping →
      a'.frame_index = if a.frame_index = 2 then 0 else a.frame_index + 1)
    ∧ (a.jump.next a.jump_step a.jump_count ≠ JumpState.NotJumping →
      a'.frame_index = 0) := by
  have hfi := next_frame_index a a' h
  constructor
  · intro hnj
    rw [hfi]
    unfold Animation.nextFrameIndex
    rw [hnj]
  · intro hnj
    rw [hfi]
    unfold Animation.nextFrameIndex
    cases hj : a.jump.next a.jump_step a.jump_count
    · exact absurd hj hnj
    · rfl
    · rfl

/-- The three-pose walk in mid-cycle: grounded, frame_index = 1. -/
def groundedMid : Animation :=
  { Animation.new poses3 poses3 with area := (800, 600), walk_step := 10, frame_index := 1 }

/-- The state one Animation::next after groundedMid. -/
def groundedMidNext : Animation :=
  { groundedMid with count := 1, frame_index := 2, x := 10 }

/-- Witness for C4 amended: from grounded frame_index 1 the next call
advances the pose index to 2. -/
theorem c4_amended_pose_cycle_witness :
    Animation.next groundedMid = some groundedMidNext
    ∧ groundedMid.jump.next groundedMid.jump_step groundedMid.jump_count
        = JumpState.NotJumping
    ∧ groundedMidNext.frame_index = 2 := by
  refine ⟨by decide, by decide, ?_⟩
  have h := (c4_amended_pose_cycle groundedMid groundedMidNext (by decide)).1 (by decide)
  simpa using h

/-- All buffers of a pool are held by the compositor. -/
def allHeld (l : BufferList) : Prop := ∀ b ∈ l, b.in_use = true

instance (l : BufferList) : Decidable (allHeld l) :=
  inferInstanceAs (Decidable (∀ b ∈ l, b.in_use = true))

/-- A depth-2 pool with both slots held, laid out as registry_post_process
creates them (ranges (4, 8) and (8, 12) for a 1-pixel frame). -/
def heldPool : BufferList :=
  [{ handle := 10, mmap_range := (4, 8), in_use := true },
   { handle := 11, mmap_range := (8, 12), in_use := true }]

/-- C5: BufferList::get_free_buffer returns the first buffer in order whose
in_use flag is false and returns none when every buffer is held; with
depth 2 and both slots held it returns none, and after releasing slot 0's
handle the next acquire returns slot 0. -/
theorem c5_acquire_first_free :
    (∀ l : BufferList, allHeld l → BufferList.get_free_buffer l = none)
    ∧ (∀ (l : BufferList) (b : Buffer), BufferList.get_free_buffer l = some b →
        b.in_use = false
        ∧ ∃ i, l[i]? = some b
          ∧ ∀ (j : ℕ) (c : Buffer), j < i → l[j]? = some c → c.in_use = true)
    ∧ BufferList.get_free_buffer heldPool = none
    ∧ BufferList.get_free_buffer (BufferList.set_in_use heldPool 10 false)
        = some { handle := 10, mmap_range := (4, 8), in_use := false } := by
  refine ⟨?_, ?_, by decide, by decide⟩
  · intro l hl
    rw [BufferList.get_free_buffer, List.find?_eq_none]
    intro b hb
    simp [hl b hb]
  · intro l b h
    have h' := h
    rw [BufferList.get_free_buffer] at h'
    have h1 := List.find?_some h'
    exact ⟨by simpa using h1, find_free_first l b h⟩

/-- Witness for C5: both slots of the depth-2 pool held, acquire returns
none. -/
theorem c5_acquire_witness :
    allHeld heldPool ∧ BufferList.get_free_buffer heldPool = none :=
  ⟨by decide, c5_acquire_first_free.1 heldPool (by decide)⟩

/-- Every buffer of the pool matching the handle is already free: covers a
release signal for an unknown handle (no buffer matches) and a duplicate
release of an already-free slot. -/
def matchFree (l : BufferList) (h : ℕ) : Prop :=
  ∀ b ∈ l, b.handle = h → b.in_use = false

instance (l : BufferList) (h : ℕ) : Decidable (matchFree l h) :=
  inferInstanceAs (Decidable (∀ b ∈ l, b.handle = h → b.in_use = false))

/-- C6: release (BufferList::set_in_use with in_use = false) is total and
idempotent: releasing an already-free slot or an unknown handle leaves the
pool unchanged without error, applying the same set_in_use twice equals
applying it once, and at most one position of the pool (the first match) is
modified - every other slot is unchanged. -/
theorem c6_release_total_idempotent :
    (∀ (l : BufferList) (h : ℕ), matchFree l h → BufferList.set_in_use l h false = l)
    ∧ (∀ (l : BufferList) (h : ℕ) (v : Bool),
        BufferList.set_in_use (BufferList.set_in_use l h v) h v
          = BufferList.set_in_use l h v)
    ∧ (∀ (l : BufferList) (h : ℕ) (v : Bool), ∃ k, ∀ (i : ℕ) (b : Buffer),
        i ≠ k → l[i]? = some b → (BufferList.set_in_use l h v)[i]? = some b) := by
  refine ⟨?_, ?_, ?_⟩
  · intro l h
    induction l with
    | nil => intro _; rfl
    | cons b bs ih =>
      intro hm
      rw [BufferList.set_in_use]
      by_cases hb : b.handle = h
      · rw [if_pos hb]
        have hbf : b.in_use = false := hm b (by simp) hb
        have heq : { b with in_use := false } = b := by
          cases b
          simp_all
        rw [heq]
      · rw [if_neg hb, ih (fun c hc hch => hm c (List.mem_cons_of_mem _ hc) hch)]
  · intro l h v
    induction l with
    | nil => rfl
    | cons b bs ih =>
      rw [BufferList.set_in_use]
      by_cases hb : b.handle = h
      · rw [if_pos hb, BufferList.set_in_use, if_pos hb]
      · rw [if_neg hb, BufferList.set_in_use, if_neg hb, ih]
  · intro l h v
    induction l with
    | nil => exact ⟨0, fun i b _ hb => by simp at hb⟩
    | cons x xs ih =>
      rw [BufferList.set_in_use]
      by_cases hx : x.handle = h
      · rw [if_pos hx]
        refine ⟨0, ?_⟩
        intro i b hi hb
        match i with
        | 0 => omega
        | k + 1 =>
          have hb' : xs[k]? = some b := by simpa using hb
          simpa using hb'
      · rw [if_neg hx]
        obtain ⟨k, hk⟩ := ih
        refine ⟨k + 1, ?_⟩
        intro i b hi hb
        match i with
        | 0 => simpa using hb
        | j + 1 =>
          have hj := hk j b (by omega) (by simpa using hb)
          simpa using hj

/-- A depth-2 pool with slot 0 free and slot 1 held. -/
def mixedPool : BufferList :=
  [{ handle := 20, mmap_range := (4, 8), in_use := false },
   { handle := 21, mmap_range := (8, 12), in_use := true }]

/-- Witness for C6: a release for the unknown handle 99 leaves the pool
unchanged. -/
theorem c6_release_witness :
    matchFree mixedPool 99 ∧ BufferList.set_in_use mixedPool 99 false = mixedPool :=
  ⟨by decide, c6_release_total_idempotent.1 mixedPool 99 (by decide)⟩

/-- C8: State::draw invoked while the surface is not configured, or while
no free slot exists, returns with the whole state unchanged: the animation
is not advanced, no in_use flag is set, no bytes are written and the
repaint flag keeps its value. -/
theorem c8_draw_skip_noop (s : State)
    (h : s.configured = false ∨ BufferList.get_free_buffer s.child_buffers = none) :
    State.draw s = some s := by
  rw [State.draw]
  by_cases hc : s.configured = false
  · rw [if_pos hc]
  · rw [if_neg hc]
    rcases h with h | h
    · exact absurd h hc
    · have hfi : firstFreeIdx s.child_buffers = none := by
        rw [firstFreeIdx_eq_none]
        rw [BufferList.get_free_buffer, List.find?_eq_none] at h
        intro b hb
        simpa using h b hb
      rw [hfi]

/-- A steady state before the first xdg_surface configure. -/
def unconfiguredState : State :=
  { running := true
    configured := false
    fullscreen_requested := true
    repaint_required := false
    child_buffers := heldPool
    mmap := List.replicate 12 0
    animation := Animation.new poses3 poses3 }

/-- Witness for C8: draw on the unconfigured state is the identity. -/
theorem c8_draw_skip_witness :
    (unconfiguredState.configured = false
      ∨ BufferList.get_free_buffer unconfiguredState.child_buffers = none)
    ∧ State.draw unconfiguredState = some unconfiguredState :=
  ⟨Or.inl rfl, c8_draw_skip_noop unconfiguredState (Or.inl rfl)⟩

/-- C10: Animation::frame indexes the pose lists without a bounds check and
Animation::next wraps the pose index after index 2 regardless of how many
pose images actually decoded (Animation::new silently drops failed
decodes).  frame() is total whenever both lists hold at least 3 images and
the index is in the reachable set 0..2; and from the grounded start of a
forward walk over a non-empty pose list shorter than 3 (length N = 1 or 2,
with the area wide enough that the walk itself cannot fail), the run aborts
with an out-of-bounds pose index within N calls of next(). -/
theorem c10_frame_index_bounds :
    (∀ a : Animation, 3 ≤ a.frames.length → 3 ≤ a.frames_flipped.length →
        a.frame_index < 3 → (Animation.frame a).isSome = true)
    ∧ (∀ a : Animation, a.forward = true → a.jump = JumpState.NotJumping →
        a.count = 0 → a.frame_index = 0 →
        (∀ f ∈ a.frames, a.x + 2 * a.walk_step + f.width < a.area.1) →
        (a.frames.length = 1 ∨ a.frames.length = 2) →
        iterNext a.frames.length a = none) := by
  constructor
  · intro a h3 h3f hidx
    rw [Animation.frame]
    by_cases hf : a.forward = true
    · rw [if_pos hf, List.getElem?_eq_getElem (by omega)]
      rfl
    · rw [if_neg hf, List.getElem?_eq_getElem (by omega)]
      rfl
  · intro a hf hj hc hfi hw hlen
    obtain ⟨x, y, ⟨aw, ah⟩, count, jump, fwd, ws, jc, js, frames, ff, fi⟩ := a
    dsimp only at hf hj hc hfi hw hlen ⊢
    subst hf hj hc hfi
    rcases hlen with h1 | h2
    · obtain ⟨f0, rfl⟩ := List.length_eq_one.mp h1
      have s1 : Animation.next ⟨x, y, (aw, ah), 0, .NotJumping, true, ws, jc, js, [f0], ff, 0⟩
          = none := by
        simp [Animation.next, Animation.stepUpdate, Animation.frame, JumpState.next]
      simp [iterNext, s1]
    · obtain ⟨f0, f1, rfl⟩ := List.length_eq_two.mp h2
      have hm1 : f1 ∈ [f0, f1] := by simp
      have hA : f1.width ≤ aw := by have := hw f1 hm1; omega
      have hB : ¬ (aw - f1.width ≤ x + ws) := by have := hw f1 hm1; omega
      have s1 : Animation.next ⟨x, y, (aw, ah), 0, .NotJumping, true, ws, jc, js, [f0, f1], ff, 0⟩
          = some ⟨x + ws, y, (aw, ah), 1, .NotJumping, true, ws, jc, js, [f0, f1], ff, 1⟩ := by
        simp [Animation.next, Animation.stepUpdate, Animation.frame, JumpState.next, hA, hB]
      have s2 : Animation.next ⟨x + ws, y, (aw, ah), 1, .NotJumping, true, ws, jc, js, [f0, f1], ff, 1⟩
          = none := by
        simp [Animation.next, Animation.stepUpdate, Animation.frame, JumpState.next]
      simp [iterNext, s1, s2]

/-- A fully decoded three-pose animation with a real area. -/
def threePoseReady : Animation := { Animation.new poses3 poses3 with area := (800, 600) }

/-- The same walk with only two poses decoded. -/
def shortPoseWalk : Animation :=
  { Animation.new [gopher40, gopher40] [gopher40, gopher40] with
      area := (800, 600), walk_step := 10 }

/-- Witness for C10: with three decoded poses frame() is defined; with two
decoded poses the run aborts within two next() calls. -/
theorem c10_frame_index_bounds_witness :
    (3 ≤ threePoseReady.frames.length ∧ (Animation.frame threePoseReady).isSome = true)
    ∧ (shortPoseWalk.frames.length = 2
        ∧ iterNext shortPoseWalk.frames.length shortPoseWalk = none) :=
  ⟨⟨by decide, c10_frame_index_bounds.1 threePoseReady (by decide) (by decide) (by decide)⟩,
   ⟨by decide,
    c10_frame_index_bounds.2 shortPoseWalk rfl rfl rfl rfl (by decide) (Or.inr (by decide))⟩⟩

/-- C1: on every step of the event loop from a well-formed state, a slot's
byte range is written only while the slot is free.  First conjunct: no
event - State::draw included - changes any byte in the range of a slot
whose in_use flag is true (release only clears the flag, and the other
handlers never touch the memory map), so a slot's bytes are immutable from
the moment in_use is set until the release event clears it.  Second
conjunct: when draw does render, the slot it selects had in_use == false,
all pixel bytes of the current pose are in place in its range in the
post-state, and its in_use flag is set in the same atomic step that hands
the buffer to the compositor - pixel-write-before-publish. -/
theorem c1_held_slot_bytes_immutable (s s' : State) (e : Event)
    (hwf : s.WF) (hstep : step s e = some s') :
    (∀ (i : ℕ) (b : Buffer), s.child_buffers[i]? = some b → b.in_use = true →
        rangeBytes s'.mmap b.mmap_range = rangeBytes s.mmap b.mmap_range)
    ∧ (∀ i : ℕ, e = Event.draw → s.configured = true →
        firstFreeIdx s.child_buffers = some i →
        ∃ (b : Buffer) (f : RgbaImage), s.child_buffers[i]? = some b ∧ b.in_use = false
          ∧ s.animation.frame = some f
          ∧ s'.child_buffers[i]? = some { b with in_use := true }
          ∧ rangeBytes s'.mmap (b.mmap_range.1, b.mmap_range.1 + (renderBytes f).length)
              = renderBytes f) := by
  cases e with
  | release h =>
    simp only [step] at hstep
    have hs := Option.some.inj hstep
    subst hs
    exact ⟨fun i b _ _ => rfl, fun i he => Event.noConfusion he⟩
  | frameDone =>
    simp only [step] at hstep
    have hs := Option.some.inj hstep
    subst hs
    exact ⟨fun i b _ _ => rfl, fun i he => Event.noConfusion he⟩
  | surfaceConfigure =>
    simp only [step] at hstep
    have hs := Option.some.inj hstep
    subst hs
    exact ⟨fun i b _ _ => rfl, fun i he => Event.noConfusion he⟩
  | close =>
    simp only [step] at hstep
    have hs := Option.some.inj hstep
    subst hs
    exact ⟨fun i b _ _ => rfl, fun i he => Event.noConfusion he⟩
  | keyEsc =>
    simp only [step] at hstep
    have hs := Option.some.inj hstep
    subst hs
    exact ⟨fun i b _ _ => rfl, fun i he => Event.noConfusion he⟩
  | toplevelConfigure w h fullscreen =>
    simp only [step] at hstep
    by_cases hfs : (fullscreen && s.fullscreen_requested) = true
    · rw [if_pos hfs] at hstep
      have hs := Option.some.inj hstep
      subst hs
      exact ⟨fun i b _ _ => rfl, fun i he => Event.noConfusion he⟩
    · rw [if_neg hfs] at hstep
      have hs := Option.some.inj hstep
      subst hs
      exact ⟨fun i b _ _ => rfl, fun i he => Event.noConfusion he⟩
  | draw =>
    simp only [step] at hstep
    rw [State.draw] at hstep
    by_cases hc : s.configured = false
    · rw [if_pos hc] at hstep
      have hs := Option.some.inj hstep
      subst hs
      refine ⟨fun i b _ _ => rfl, fun i _ hcT _ => ?_⟩
      rw [hcT] at hc
      exact absurd hc (by simp)
    · rw [if_neg hc] at hstep
      match hfi : firstFreeIdx s.child_buffers with
      | none =>
        rw [hfi] at hstep
        dsimp only at hstep
        have hs := Option.some.inj hstep
        subst hs
        exact ⟨fun i b _ _ => rfl, fun i _ _ hfi2 => Option.noConfusion hfi2⟩
      | some i0 =>
        rw [hfi] at hstep
        dsimp only at hstep
        obtain ⟨b0, hb0, hb0free⟩ := firstFreeIdx_spec _ _ hfi
        rw [hb0] at hstep
        dsimp only at hstep
        match hfr : s.animation.frame with
        | none => rw [hfr] at hstep; exact Option.noConfusion hstep
        | some f =>
          rw [hfr] at hstep
          dsimp only at hstep
          by_cases hfit : b0.mmap_range.1 + (renderBytes f).length ≤ b0.mmap_range.2
              ∧ b0.mmap_range.2 ≤ s.mmap.length
          · rw [if_pos hfit] at hstep
            match hpos : s.animation.position with
            | none => rw [hpos] at hstep; exact Option.noConfusion hstep
            | some p =>
              rw [hpos] at hstep
              dsimp only at hstep
              match hnx : s.animation.next with
              | none => rw [hnx] at hstep; exact Option.noConfusion hstep
              | some anim =>
                rw [hnx] at hstep
                dsimp only at hstep
                have hs := Option.some.inj hstep
                subst hs
                obtain ⟨hi0lt, hi0get⟩ := getElem?_some_exists hb0
                have hfitm : b0.mmap_range.1 + (renderBytes f).length ≤ s.mmap.length := by
                  omega
                constructor
                · intro j bj hbj hbjheld
                  obtain ⟨hjlt, hjget⟩ := getElem?_some_exists hbj
                  have hji : j ≠ i0 := by
                    intro hji
                    subst hji
                    rw [hbj] at hb0
                    have := Option.some.inj hb0
                    rw [← this] at hb0free
                    rw [hbjheld] at hb0free
                    exact Bool.noConfusion hb0free
                  have hdisj : rangesDisjoint bj.mmap_range b0.mmap_range := by
                    have hpw := hwf.2
                    rw [List.pairwise_iff_getElem] at hpw
                    rcases Nat.lt_or_ge j i0 with hlt | hge
                    · have := hpw j i0 hjlt hi0lt hlt
                      rw [hjget, hi0get] at this
                      exact this
                    · have hlt2 : i0 < j := by omega
                      have := hpw i0 j hi0lt hjlt hlt2
                      rw [hjget, hi0get] at this
                      rcases this with h1 | h1
                      · exact Or.inr h1
                      · exact Or.inl h1
                  apply rangeBytes_congr
                  intro k hk1 hk2
                  apply getElem?_writeRange_outside _ _ _ _ hfitm
                  rcases hdisj with hd | hd
                  · left; omega
                  · right; omega
                · intro i hed hcT hfi2
                  have hii : i0 = i := Option.some.inj hfi2
                  subst hii
                  refine ⟨b0, f, hb0, hb0free, rfl, ?_, ?_⟩
                  · exact List.getElem?_set_self hi0lt
                  · exact rangeBytes_writeRange_self s.mmap (renderBytes f)
                      b0.mmap_range.1 hfitm
          · rw [if_neg hfit] at hstep
            exact Option.noConfusion hstep

/-- The depth-2 steady-state pool: slot 0 held by the compositor, slot 1
free, ranges laid out back to back. -/
def livePool : BufferList :=
  [{ handle := 30, mmap_range := (4, 8), in_use := true },
   { handle := 31, mmap_range := (8, 12), in_use := false }]

/-- A well-formed configured steady state over livePool. -/
def liveState : State :=
  { running := true
    configured := true
    fullscreen_requested := false
    repaint_required := true
    child_buffers := livePool
    mmap := List.replicate 12 7
    animation := { Animation.new poses3 poses3 with area := (800, 600) } }

/-- liveState after the compositor releases slot 1's handle. -/
def liveStateReleased : State :=
  { liveState with child_buffers := BufferList.set_in_use livePool 31 false }

/-- Witness for C1: on a release event from the well-formed liveState, the
held slot 0's byte range (4, 8) is unchanged. -/
theorem c1_held_slot_bytes_witness :
    liveState.WF
    ∧ step liveState (Event.release 31) = some liveStateReleased
    ∧ rangeBytes liveStateReleased.mmap (4, 8) = rangeBytes liveState.mmap (4, 8) :=
  ⟨by decide, by decide,
    (c1_held_slot_bytes_immutable liveState liveStateReleased (Event.release 31)
        (by decide) (by decide)).1 0
      { handle := 30, mmap_range := (4, 8), in_use := true } (by decide) rfl⟩

end Wlgopher
